import Mathlib

/-!
Verification of the unikmer binary container format and its streaming
set-algebra commands (union, diff, uniqs), shallowly embedded from the Go
sources `file.go`, `cmd/union.go`, `cmd/diff.go` and `cmd/uniqs.go`.

Bytes are modelled as natural numbers (values < 256 where it matters);
`uint64` values are naturals and truncation `% 2^64` is written explicitly
where the Go code writes a `uint64`/`int64` to the wire.  The in-memory
`io.Writer`/`io.Reader` pair is modelled as a pure byte list: I/O failures
of the underlying operating-system stream are not modelled, and end-of-file
conditions are derived from the remaining byte list exactly as
`encoding/binary.Read` (via `io.ReadFull`) derives them: `eof` when no byte
is available, `unexpectedEof` when only part of the requested count is.
-/

namespace Unikmer

/-- Big-endian byte list (most significant first) of `n`, `w` bytes wide,
as produced by `binary.BigEndian.PutUint64` and `binary.Write` in `file.go`. -/
def natToBE : Nat → Nat → List Nat
  | 0, _ => []
  | w + 1, n => natToBE w (n / 256) ++ [n % 256]

/-- Big-endian decoding of a byte list, as `binary.BigEndian.Uint64` does. -/
def beToNat (l : List Nat) : Nat :=
  l.foldl (fun acc b => acc * 256 + b) 0

/-- `KmerCode` from `kmer.go`: a packed 2-bit-per-base code (`uint64`) with its
k-mer length (`int`). -/
structure KmerCode where
  Code : Nat
  K : Nat
  deriving DecidableEq, Repr

/-- `Magic = [8]byte{'.', 'u', 'n', 'i', 'k', 'm', 'e', 'r'}` from `file.go`. -/
def magicBytes : List Nat := [46, 117, 110, 105, 107, 109, 101, 114]

/-- `MainVersion int64 = 0` from `file.go`. -/
def mainVersion : Nat := 0

/-- Errors the reader side of `file.go` can produce.  `eof` and
`unexpectedEof` model `io.EOF` / `io.ErrUnexpectedEOF` as surfaced by
`binary.Read`; `invalidFileFormat` models `ErrInvalidFileFormat`. -/
inductive RErr where
  | eof
  | unexpectedEof
  | invalidFileFormat
  deriving DecidableEq, Repr

/-- Error the writer side of `file.go` can produce over a pure byte sink:
`ErrKMismatch`. -/
inductive WErr where
  | kMismatch
  deriving DecidableEq, Repr

/-- `binary.Read` of `n` bytes from a byte stream: takes exactly `n` bytes or
fails, with `io.EOF` when the stream is empty and `io.ErrUnexpectedEOF` when
it holds fewer than `n` bytes (the `io.ReadFull` contract). -/
def readBytes (n : Nat) (s : List Nat) : Except RErr (List Nat × List Nat) :=
  if n ≤ s.length then .ok (s.take n, s.drop n)
  else if s.length = 0 then .error .eof
  else .error .unexpectedEof

/-- `Reader` state from `file.go` after a successful `readHeader`: the header
fields, the compact flag, the per-code byte width `bufsize`, and the
remaining byte stream.  The Go field `err` is a last-error cache that never
influences behaviour and is omitted; `buf`'s first `8 - bufsize` bytes stay
zero (they are allocated zeroed and never written), which `read` reflects by
re-padding with zeros. -/
structure Reader where
  MainVersion : Nat
  MinorVersion : Nat
  K : Nat
  Compact : Bool
  bufsize : Nat
  stream : List Nat
  size : Nat
  deriving DecidableEq, Repr

/-- `NewReader` + `Reader.readHeader` from `file.go`: read and check the
8-byte magic, then a `[3]int64` metadata block `(MainVersion, MinorVersion,
K)`; `Compact` is on iff `MinorVersion == 2`; `bufsize = (K+3)/4`. -/
def newReader (s : List Nat) : Except RErr Reader :=
  match readBytes 8 s with
  | .error e => .error e
  | .ok (m, s₁) =>
    if m ≠ magicBytes then .error .invalidFileFormat
    else
      match readBytes 24 s₁ with
      | .error e => .error e
      | .ok (meta, s₂) =>
        let main := beToNat (meta.take 8)
        let minor := beToNat ((meta.drop 8).take 8)
        let k := beToNat (meta.drop 16)
        .ok { MainVersion := main, MinorVersion := minor, K := k,
              Compact := minor = 2, bufsize := (k + 3) / 4,
              stream := s₂, size := 0 }

/-- `Reader.Read` from `file.go`: in compact mode read `bufsize` bytes into
the tail of a zeroed 8-byte buffer and decode big-endian, otherwise read a
full 8-byte big-endian `uint64`; on success return
`KmerCode{Code: code, K: reader.Header.K}` and bump `size`. -/
def Reader.read (r : Reader) : Except RErr (KmerCode × Reader) :=
  if r.Compact then
    match readBytes r.bufsize r.stream with
    | .error e => .error e
    | .ok (chunk, rest) =>
      let code := beToNat (List.replicate (8 - r.bufsize) 0 ++ chunk)
      .ok (⟨code, r.K⟩, { r with stream := rest, size := r.size + 1 })
  else
    match readBytes 8 r.stream with
    | .error e => .error e
    | .ok (chunk, rest) =>
      .ok (⟨beToNat chunk, r.K⟩, { r with stream := rest, size := r.size + 1 })

/-- `Writer` state from `file.go`.  `out` is the byte sink; the Go `err`
cache field is omitted (it never influences behaviour), and the scratch
buffer `buf` is inlined into `write`. -/
structure Writer where
  K : Nat
  Compact : Bool
  wroteHeader : Bool
  size : Nat
  bufsize : Nat
  out : List Nat
  deriving DecidableEq, Repr

/-- `NewWriter(w, k)` from `file.go`: fresh writer with `bufsize = (k+3)/4`;
`Compact` defaults to off and is set by callers as a public field. -/
def newWriter (k : Nat) : Writer :=
  { K := k, Compact := false, wroteHeader := false, size := 0,
    bufsize := (k + 3) / 4, out := [] }

/-- `Writer.writeHeader` byte image: magic, then
`[3]int64{MainVersion, minorVersion, K}` where `minorVersion` is 2 in
compact mode and 1 otherwise. -/
def writerHeaderBytes (w : Writer) : List Nat :=
  magicBytes ++ natToBE 8 mainVersion ++
    natToBE 8 (if w.Compact then 2 else 1) ++ natToBE 8 (w.K % 2 ^ 64)

/-- `Writer.Write(kcode)` from `file.go`: fail with `ErrKMismatch` when
`kcode.K` differs from the writer's `K`; otherwise lazily emit the header on
the first call, then emit the code — the low `bufsize` bytes of its 8-byte
big-endian image in compact mode, all 8 bytes otherwise — and bump `size`. -/
def Writer.write (w : Writer) (kc : KmerCode) : Writer × Option WErr :=
  if w.K ≠ kc.K then (w, some .kMismatch)
  else
    let w₁ :=
      if w.wroteHeader then w
      else { w with out := w.out ++ writerHeaderBytes w, wroteHeader := true }
    let body :=
      if w.Compact then (natToBE 8 (kc.Code % 2 ^ 64)).drop (8 - w.bufsize)
      else natToBE 8 (kc.Code % 2 ^ 64)
    ({ w₁ with out := w₁.out ++ body, size := w₁.size + 1 }, none)

/-- `Writer.Flush` from `file.go`: does nothing and returns no error (the
trailing-size write is commented out in the source). -/
def Writer.flush (w : Writer) : Writer × Option WErr := (w, none)

/-- Write a list of codes in order, stopping at the first error, as the
command loops (`checkError(writer.Write(...))`) do. -/
def writeAll (w : Writer) (codes : List KmerCode) : Writer × Option WErr :=
  match codes with
  | [] => (w, none)
  | kc :: rest =>
    match w.write kc with
    | (w', some e) => (w', some e)
    | (w', none) => writeAll w' rest

/-- Read exactly `n` codes, propagating the first error. -/
def readN : Nat → Reader → Except RErr (List KmerCode × Reader)
  | 0, r => .ok ([], r)
  | n + 1, r =>
    match r.read with
    | .error e => .error e
    | .ok (kc, r') =>
      match readN n r' with
      | .error e => .error e
      | .ok (cs, r'') => .ok (kc :: cs, r'')

/-- Open a stream, read exactly `n` codes, and require a clean `io.EOF` on
the next read; `none` on any other outcome. -/
def readBack (s : List Nat) (n : Nat) : Option (List KmerCode) :=
  match newReader s with
  | .error _ => none
  | .ok r =>
    match readN n r with
    | .error _ => none
    | .ok (cs, r') =>
      match r'.read with
      | .error .eof => some cs
      | _ => none

/-- The compact body image of a code list: per code, the low `(k+3)/4` bytes
of its 8-byte big-endian image, concatenated. -/
def bodyBytes (b : Nat) (codes : List KmerCode) : List Nat :=
  (codes.map fun kc => (natToBE 8 (kc.Code % 2 ^ 64)).drop (8 - b)).flatten

/-- A fresh writer put in compact mode, as `union`/`count` construct one:
`NewWriter(outfh, k)` followed by setting the public `Compact` field. -/
def compactWriter (k : Nat) : Writer :=
  { K := k, Compact := true, wroteHeader := false, size := 0,
    bufsize := (k + 3) / 4, out := [] }

/-- `true` exactly on the `ok` constructor. -/
def isOkE {ε α : Type} : Except ε α → Bool
  | .ok _ => true
  | .error _ => false

/-- Open a stream and perform one `Read`, reporting the code obtained. -/
def firstReadCode (s : List Nat) : Option KmerCode :=
  match newReader s with
  | .error _ => none
  | .ok r =>
    match r.read with
    | .ok (kc, _) => none.getD kc |> some
    | .error _ => none

/-- A syntactically valid compact stream with `k = 1` whose single record
byte is `0xFF`: the header is magic, versions `(0, 2)` and `k = 1`, and the
body is one compact record of `bufsize = 1` byte. -/
def c5Stream : List Nat :=
  magicBytes ++ natToBE 8 0 ++ natToBE 8 2 ++ natToBE 8 1 ++ [255]

/-- The union command's per-file read loop (`cmd/union.go`, the body of the
`for` over `reader.Read()`): for each code, if absent from the map `m`
insert it and immediately write it to the output, else skip.  `seen` models
the map's key set and `out` the sequence of codes handed to the writer. -/
def unionCodes (codes seen out : List Nat) : List Nat × List Nat :=
  match codes with
  | [] => (seen, out)
  | c :: cs =>
    if c ∈ seen then unionCodes cs seen out
    else unionCodes cs (c :: seen) (out ++ [c])

/-- The union driver over the file list.  (The `!firstFile && file ==
files[0]` skip in the source is dead code — `firstFile` is never set to
false in `union.go` — so every file is processed in order.) -/
def unionFiles (files : List (List Nat)) (seen out : List Nat) : List Nat × List Nat :=
  match files with
  | [] => (seen, out)
  | f :: rest =>
    let p := unionCodes f seen out
    unionFiles rest p.1 p.2

/-- The code sequence union writes for a list of input files. -/
def unionOutput (files : List (List Nat)) : List Nat :=
  (unionFiles files [] []).2

/-- The distinct elements of a list in first-seen order (the spec's
description of union's output). -/
def firstSeen : List Nat → List Nat
  | [] => []
  | c :: cs => c :: firstSeen (cs.filter fun x => x ≠ c)
termination_by l => l.length
decreasing_by
  simp only [List.length_cons]
  exact Nat.lt_succ_of_le (List.length_filter_le _ _)

/-- An input file of the diff command: its path (modelled as an abstract
identifier compared for equality, as `file == files[0]` compares strings)
and the code sequence its stream yields. -/
structure DFile where
  path : Nat
  codes : List Nat
  deriving DecidableEq, Repr

/-- Lookup in the `map[uint64]bool` model (association list; `mset` keeps
keys unique, so the representation order is irrelevant to `mget`). -/
def mget (m : List (Nat × Bool)) (c : Nat) : Option Bool :=
  match m with
  | [] => none
  | (k, v) :: rest => if k = c then some v else mget rest c

/-- `m[c] = v` on the association-list model of the Go map. -/
def mset (m : List (Nat × Bool)) (c : Nat) (v : Bool) : List (Nat × Bool) :=
  match m with
  | [] => [(c, v)]
  | (k, w) :: rest => if k = c then (c, v) :: rest else (k, w) :: mset rest c v

/-- diff's first-file loop body (`m[kcode.Code] = false` per code). -/
def loadFirst (codes : List Nat) (m : List (Nat × Bool)) : List (Nat × Bool) :=
  match codes with
  | [] => m
  | c :: cs => loadFirst cs (mset m c false)

/-- diff's subsequent-file loop body: mark a code `true` iff it is already a
key of the map (`if _, ok = m[kcode.Code]; ok { m[kcode.Code] = true }`). -/
def markSeen (codes : List Nat) (m : List (Nat × Bool)) : List (Nat × Bool) :=
  match codes with
  | [] => m
  | c :: cs => markSeen cs (if (mget m c).isSome then mset m c true else m)

/-- diff's checkpoint sweep: delete every entry marked `true`; entries
marked `false` are kept (the `m[code] = false` re-assignment the source does
on them is a no-op). -/
def sweep (m : List (Nat × Bool)) : List (Nat × Bool) :=
  m.filter fun p => !p.2

/-- The file loop of `cmd/diff.go` (lines 63-168) for `len(files) ≥ 2`:
skip any non-first file whose path equals the first file's path; load the
first file; for each later file mark the seen codes, then, unless
`checkInterval > 1` and `i` is neither the last index nor a multiple of
`checkInterval`, sweep the map and short-circuit with `hasDiff = false`
(flagBreak) when it became empty.  Returns the final map and `hasDiff`.
(The `len(files) == 1` byte-copy special case is not modelled; every claim
about diff concerns two or more files.) -/
def diffLoop (p0 : Nat) (nfiles ci : Nat) :
    List DFile → Nat → Bool → List (Nat × Bool) → List (Nat × Bool) × Bool
  | [], _, _, m => (m, true)
  | f :: rest, i, firstFile, m =>
    if firstFile = false ∧ f.path = p0 then
      diffLoop p0 nfiles ci rest (i + 1) firstFile m
    else if firstFile then
      diffLoop p0 nfiles ci rest (i + 1) false (loadFirst f.codes m)
    else if 1 < ci ∧ ¬ (i = nfiles - 1 ∨ i % ci = 0) then
      diffLoop p0 nfiles ci rest (i + 1) false (markSeen f.codes m)
    else if (sweep (markSeen f.codes m)).isEmpty then
      (sweep (markSeen f.codes m), false)
    else
      diffLoop p0 nfiles ci rest (i + 1) false (sweep (markSeen f.codes m))

/-- Run diff on a file list: the loop starts at index 0 with an empty map,
comparing paths against `files[0]`. -/
def diffRun (files : List DFile) (ci : Nat) : List (Nat × Bool) × Bool :=
  match files with
  | [] => ([], true)
  | f :: _ => diffLoop f.path files.length ci files 0 true []

/-- Whether a code is a key of diff's final mapping (the output loop writes
exactly the keys of `m`). -/
def diffMember (files : List DFile) (ci : Nat) (c : Nat) : Bool :=
  (mget (diffRun files ci).1 c).isSome

/-- The Go map never holds two entries for one key; the association-list
model maintains the same invariant. -/
def keysNodup (m : List (Nat × Bool)) : Prop :=
  (m.map Prod.fst).Nodup

/-- The invariant tying diff's map to the set `A` of surviving candidate
codes and the set `P` of codes marked seen since the last sweep. -/
def MInv (m : List (Nat × Bool)) (A P : Nat → Prop) : Prop :=
  keysNodup m ∧
    ∀ c, (mget m c = some true ↔ A c ∧ P c) ∧ (mget m c = some false ↔ A c ∧ ¬ P c)

/-- One scanned genome position of the uniqs second pass, reduced to the two
map lookups the loop performs on it: whether its canonical code is in the
loaded k-mer set `m`, and whether it is flagged multi-mapped in `m2`. -/
structure GPos where
  member : Bool
  multi : Bool
  deriving DecidableEq, Repr

/-- Whether a position breaks the current run: a non-member always does;
a member does exactly when multi-mapped filtering is enabled (`!mMapped` in
the source) and its code is flagged multi-mapped. -/
def isBreakPos (fm : Bool) (p : GPos) : Bool :=
  if p.member then fm && p.multi else true

/-- The emit-on-close step of `cmd/uniqs.go`: `if start >= 0 && i-start >=
minLen`, append the BED interval `[start, i)`; `start = -1` is `none`. -/
def emitClose (minLen : Nat) (start : Option Nat) (i : Nat)
    (out : List (Nat × Nat)) : List (Nat × Nat) :=
  match start with
  | some s => if minLen ≤ i - s then out ++ [(s, i)] else out
  | none => out

/-- The second-pass position loop of `cmd/uniqs.go` (lines 286-358): on a
breaking position emit-and-reset (`c = 0; start = -1`); on a run position
increment `c` and latch `start = i` exactly when `c` reaches `k`; after the
last position the trailing interval is closed at the one-past-the-end
index. -/
def uniqsScanAux (k minLen : Nat) (fm : Bool) :
    List GPos → Nat → Nat → Option Nat → List (Nat × Nat) → List (Nat × Nat)
  | [], i, _, start, out => emitClose minLen start i out
  | p :: ps, i, c, start, out =>
    if isBreakPos fm p then
      uniqsScanAux k minLen fm ps (i + 1) 0 none (emitClose minLen start i out)
    else
      uniqsScanAux k minLen fm ps (i + 1) (c + 1)
        (if c + 1 = k then some i else start) out

/-- All intervals uniqs emits for one sequence's scanned positions. -/
def uniqsScan (k minLen : Nat) (fm : Bool) (ps : List GPos) : List (Nat × Nat) :=
  uniqsScanAux k minLen fm ps 0 0 none []

/-- The break classification of position `j` of the scanned sequence. -/
def breakAt (fm : Bool) (ps : List GPos) (j : Nat) : Bool :=
  isBreakPos fm (ps.getD j ⟨false, false⟩)

/-- The claim's characterisation of an emitted interval: a maximal run of
non-breaking positions whose counter first reached `k` at `s` (so positions
`s+1-k … e-1` are non-breaking and position `s-k`, if any, breaks), closed
at `e` by a breaking position or the end of the scan, with length at least
`min_len`. -/
def ClosedRun (k minLen : Nat) (fm : Bool) (ps : List GPos) (s e : Nat) : Prop :=
  k ≤ s + 1 ∧ s < e ∧ e ≤ ps.length ∧
    (∀ j, s + 1 - k ≤ j → j < e → breakAt fm ps j = false) ∧
    (s + 1 - k = 0 ∨ breakAt fm ps (s - k) = true) ∧
    (e = ps.length ∨ breakAt fm ps e = true) ∧
    minLen ≤ e - s

theorem natToBE_length (w n : Nat) : (natToBE w n).length = w := by
  induction w generalizing n with
  | zero => rfl
  | succ w ih => simp [natToBE, ih]

theorem beToNat_append (l₁ l₂ : List Nat) :
    beToNat (l₁ ++ l₂) = l₂.foldl (fun acc b => acc * 256 + b) (beToNat l₁) := by
  simp [beToNat, List.foldl_append]

theorem beToNat_append_singleton (l : List Nat) (b : Nat) :
    beToNat (l ++ [b]) = beToNat l * 256 + b := by
  simp [beToNat_append, beToNat]

theorem beToNat_natToBE (w n : Nat) : beToNat (natToBE w n) = n % 256 ^ w := by
  induction w generalizing n with
  | zero => simp [natToBE, beToNat, Nat.mod_one]
  | succ w ih =>
    rw [natToBE, beToNat_append_singleton, ih]
    rw [pow_succ, Nat.mul_comm (256 ^ w) 256, Nat.mod_mul]
    omega

theorem beToNat_replicate_zero_append (m : Nat) (l : List Nat) :
    beToNat (List.replicate m 0 ++ l) = beToNat l := by
  induction m with
  | zero => rfl
  | succ m ih =>
    simpa [List.replicate_succ, beToNat, List.foldl_cons] using ih

theorem natToBE_drop (w b n : Nat) (hb : b ≤ w) (hn : n < 256 ^ b) :
    (natToBE w n).drop (w - b) = natToBE b n := by
  induction w generalizing b n with
  | zero =>
    interval_cases b
    simp [natToBE]
  | succ w ih =>
    rcases Nat.eq_or_lt_of_le hb with h | h
    · subst h; simp
    · have hb' : b ≤ w := by omega
      rcases Nat.eq_zero_or_pos b with hb0 | hbpos
      · subst hb0
        have hrhs : natToBE 0 n = [] := rfl
        rw [hrhs]
        exact List.drop_eq_nil_of_le (by simp [natToBE_length])
      · have hdivlt : n / 256 < 256 ^ (b - 1) := by
          have h256 : (256 : Nat) ^ b = 256 ^ (b - 1) * 256 := by
            rw [← pow_succ]
            congr 1
            omega
          rw [Nat.div_lt_iff_lt_mul (by norm_num)]
          omega
        rw [natToBE]
        rw [List.drop_append_of_le_length (by simp [natToBE_length]; omega)]
        have hstep : w + 1 - b = w - (b - 1) := by omega
        rw [hstep, ih (b - 1) (n / 256) (by omega) hdivlt]
        have hbe : natToBE b n = natToBE (b - 1) (n / 256) ++ [n % 256] := by
          have hb1 : b = (b - 1) + 1 := by omega
          rw [hb1, natToBE]
          simp
        rw [hbe]

theorem natToBE_lt (w n : Nat) : ∀ x ∈ natToBE w n, x < 256 := by
  induction w generalizing n with
  | zero => simp [natToBE]
  | succ w ih =>
    intro x hx
    rw [natToBE] at hx
    rcases List.mem_append.mp hx with h | h
    · exact ih _ _ h
    · simp at h; omega

theorem readBytes_exact (l rest : List Nat) (n : Nat) (h : l.length = n) :
    readBytes n (l ++ rest) = .ok (l, rest) := by
  subst h
  simp [readBytes, List.take_left, List.drop_left]

theorem bufsize_pos {k : Nat} (hk : 1 ≤ k) : 1 ≤ (k + 3) / 4 := by omega

theorem bufsize_le_eight {k : Nat} (hk : k ≤ 32) : (k + 3) / 4 ≤ 8 := by omega

theorem two_k_le_eight_bufsize (k : Nat) : 2 * k ≤ 8 * ((k + 3) / 4) := by omega

theorem code_lt_pow_bufsize {k code : Nat} (hcode : code < 4 ^ k) :
    code < 256 ^ ((k + 3) / 4) := by
  calc code < 4 ^ k := hcode
    _ = 2 ^ (2 * k) := by rw [pow_mul]; norm_num
    _ ≤ 2 ^ (8 * ((k + 3) / 4)) :=
        Nat.pow_le_pow_right (by norm_num) (two_k_le_eight_bufsize k)
    _ = 256 ^ ((k + 3) / 4) := by
        rw [pow_mul]; norm_num

theorem compact_chunk_length (k code : Nat) (hk : k ≤ 32) :
    ((natToBE 8 (code % 2 ^ 64)).drop (8 - (k + 3) / 4)).length = (k + 3) / 4 := by
  have := bufsize_le_eight hk
  simp [natToBE_length]
  omega

/-- Decoding one compact record: reading from a stream whose head is the
compact image of a valid code yields that code back. -/
theorem read_compact_record (k code : Nat) (r : Reader) (rest : List Nat)
    (hk2 : k ≤ 32) (hcode : code < 4 ^ k)
    (hc : r.Compact = true) (hb : r.bufsize = (k + 3) / 4) (hK : r.K = k)
    (hs : r.stream = (natToBE 8 (code % 2 ^ 64)).drop (8 - (k + 3) / 4) ++ rest) :
    r.read = .ok (⟨code, k⟩, { r with stream := rest, size := r.size + 1 }) := by
  have hlt : code < 2 ^ 64 := by
    calc code < 4 ^ k := hcode
      _ ≤ 4 ^ 32 := Nat.pow_le_pow_right (by norm_num) hk2
      _ = 2 ^ 64 := by norm_num
  have hmod : code % 2 ^ 64 = code := Nat.mod_eq_of_lt hlt
  have hchunk := compact_chunk_length k code hk2
  rw [Reader.read, if_pos hc, hb, hs, readBytes_exact _ _ _ hchunk]
  have hdec : beToNat (List.replicate (8 - (k + 3) / 4) 0 ++
      (natToBE 8 (code % 2 ^ 64)).drop (8 - (k + 3) / 4)) = code := by
    rw [beToNat_replicate_zero_append, hmod]
    have hdrop : (natToBE 8 code).drop (8 - (k + 3) / 4) = natToBE ((k + 3) / 4) code :=
      natToBE_drop 8 ((k + 3) / 4) code (bufsize_le_eight hk2) (code_lt_pow_bufsize hcode)
    rw [hdrop, beToNat_natToBE, Nat.mod_eq_of_lt (code_lt_pow_bufsize hcode)]
  simp only [hdec, hK]

/-- A successful `Write` on a writer that has already emitted its header
appends exactly the compact body bytes. -/
theorem write_compact_step (w : Writer) (kc : KmerCode)
    (hh : w.wroteHeader = true) (hc : w.Compact = true) (hK : kc.K = w.K) :
    w.write kc = ({ w with out := w.out ++ (natToBE 8 (kc.Code % 2 ^ 64)).drop (8 - w.bufsize),
                           size := w.size + 1 }, none) := by
  rw [Writer.write, if_neg (by omega)]
  simp [hh, hc]

/-- `writeAll` over a header-written compact writer: no error, and the sink
grows by exactly the concatenated compact body. -/
theorem writeAll_compact (codes : List KmerCode) (w : Writer)
    (hh : w.wroteHeader = true) (hc : w.Compact = true)
    (hK : ∀ kc ∈ codes, kc.K = w.K) :
    writeAll w codes =
      ({ w with out := w.out ++ bodyBytes w.bufsize codes,
                size := w.size + codes.length }, none) := by
  induction codes generalizing w with
  | nil => simp [writeAll, bodyBytes]
  | cons kc rest ih =>
    rw [writeAll]
    rw [write_compact_step w kc hh hc (hK kc (by simp))]
    simp only []
    rw [ih _ (by simp [hh]) (by simp [hc]) (fun c hcm => by simpa using hK c (by simp [hcm]))]
    simp [bodyBytes, List.append_assoc]
    omega

/-- Opening a stream that starts with a compact writer header: the header
fields, flags and bufsize come back exactly, leaving the body. -/
theorem newReader_writer_header (w : Writer) (body : List Nat)
    (hc : w.Compact = true) (hk : w.K < 2 ^ 64) :
    newReader (writerHeaderBytes w ++ body) =
      .ok { MainVersion := 0, MinorVersion := 2, K := w.K, Compact := true,
            bufsize := (w.K + 3) / 4, stream := body, size := 0 } := by
  have hmod : w.K % 2 ^ 64 = w.K := Nat.mod_eq_of_lt hk
  have hhdr : writerHeaderBytes w
      = magicBytes ++ natToBE 8 mainVersion ++ natToBE 8 2 ++ natToBE 8 (w.K % 2 ^ 64) := by
    rw [writerHeaderBytes, hc]
    simp
  rw [hhdr]
  have hmagic : magicBytes.length = 8 := by decide
  rw [List.append_assoc, List.append_assoc, List.append_assoc]
  rw [newReader, readBytes_exact magicBytes _ 8 hmagic]
  simp only [ne_eq, not_true_eq_false, if_false, ite_false]
  have h024 : (natToBE 8 mainVersion ++ (natToBE 8 2 ++ natToBE 8 (w.K % 2 ^ 64))).length = 24 := by
    simp [natToBE_length]
  rw [← List.append_assoc (natToBE 8 mainVersion), ← List.append_assoc (natToBE 8 mainVersion ++ _)]
  rw [readBytes_exact _ body 24 (by simpa using h024)]
  simp only
  have hl0 : (natToBE 8 mainVersion).length = 8 := natToBE_length _ _
  have hl2 : (natToBE 8 2).length = 8 := natToBE_length _ _
  have htake8 : ((natToBE 8 mainVersion ++ natToBE 8 2 ++ natToBE 8 (w.K % 2 ^ 64)).take 8)
      = natToBE 8 mainVersion := by
    rw [List.append_assoc, List.take_left' hl0]
  have hdrop8 : ((natToBE 8 mainVersion ++ natToBE 8 2 ++ natToBE 8 (w.K % 2 ^ 64)).drop 8)
      = natToBE 8 2 ++ natToBE 8 (w.K % 2 ^ 64) := by
    rw [List.append_assoc, List.drop_left' hl0]
  have hdrop16 : ((natToBE 8 mainVersion ++ natToBE 8 2 ++ natToBE 8 (w.K % 2 ^ 64)).drop 16)
      = natToBE 8 (w.K % 2 ^ 64) := by
    exact List.drop_left' (by simp [natToBE_length])
  have hbe0 : beToNat (natToBE 8 mainVersion) = 0 := by decide
  have hbe2 : beToNat (natToBE 8 2) = 2 := by decide
  have hbeK : beToNat (natToBE 8 (w.K % 2 ^ 64)) = w.K := by
    rw [beToNat_natToBE, hmod]
    exact Nat.mod_eq_of_lt (by norm_num at hk ⊢; exact hk)
  simp only [htake8, hdrop8, hdrop16, List.take_left' hl2, hbe0, hbe2, hbeK]
  simp

/-- Reading the compact body back, record by record. -/
theorem readN_compact (codes : List KmerCode) (r : Reader) {k : Nat}
    (hk2 : k ≤ 32)
    (hcodes : ∀ kc ∈ codes, kc.K = k ∧ kc.Code < 4 ^ k)
    (hc : r.Compact = true) (hb : r.bufsize = (k + 3) / 4) (hK : r.K = k)
    (hs : r.stream = bodyBytes ((k + 3) / 4) codes) :
    readN codes.length r =
      .ok (codes, { r with stream := [], size := r.size + codes.length }) := by
  induction codes generalizing r with
  | nil =>
    simp [readN, bodyBytes] at hs ⊢
    cases r
    simp_all
  | cons kc rest ih =>
    obtain ⟨hkck, hkclt⟩ := hcodes kc (by simp)
    have hstep := read_compact_record k kc.Code r
      (bodyBytes ((k + 3) / 4) rest) hk2 hkclt hc hb hK
      (by rw [hs]; simp [bodyBytes])
    rw [List.length_cons, readN, hstep]
    simp only []
    have hkc : (⟨kc.Code, k⟩ : KmerCode) = kc := by
      cases kc; simp_all
    rw [ih { r with stream := bodyBytes ((k + 3) / 4) rest, size := r.size + 1 }
      (fun c hcm => hcodes c (by simp [hcm])) (by simpa using hc) (by simpa using hb)
      (by simpa using hK) (by simp)]
    simp only [hkc]
    have hsz : r.size + 1 + rest.length = r.size + (rest.length + 1) := by omega
    simp [hsz]

/-- A read at the exact end of a compact stream fails with a clean `io.EOF`,
exactly as `binary.Read` reports it. -/
theorem read_eof (r : Reader) {k : Nat} (hk1 : 1 ≤ k)
    (hc : r.Compact = true) (hb : r.bufsize = (k + 3) / 4) (hs : r.stream = []) :
    r.read = .error .eof := by
  rw [Reader.read, if_pos hc, hs, hb, readBytes]
  have : ¬ ((k + 3) / 4 ≤ ([] : List Nat).length) := by simp; omega
  rw [if_neg this]
  simp

theorem bodyBytes_cons (b : Nat) (kc : KmerCode) (rest : List KmerCode) :
    bodyBytes b (kc :: rest) =
      (natToBE 8 (kc.Code % 2 ^ 64)).drop (8 - b) ++ bodyBytes b rest := by
  simp [bodyBytes]

theorem compactWriter_eq (k : Nat) :
    compactWriter k = { newWriter k with Compact := true } := rfl

/-- The very first successful `Write` on a fresh compact writer emits the
header followed by one compact record. -/
theorem write_first_compact (k : Nat) (kc : KmerCode) (hK : kc.K = k) :
    (compactWriter k).write kc =
      ({ K := k, Compact := true, wroteHeader := true, size := 1,
         bufsize := (k + 3) / 4,
         out := writerHeaderBytes (compactWriter k) ++
           (natToBE 8 (kc.Code % 2 ^ 64)).drop (8 - (k + 3) / 4) }, none) := by
  rw [Writer.write]
  rw [if_neg (by simp [compactWriter, hK])]
  simp [compactWriter]

theorem knat_lt (k : Nat) (hk2 : k ≤ 32) : k < 2 ^ 64 := by
  calc k ≤ 32 := hk2
    _ < 2 ^ 64 := by norm_num

/-- C1 (amended): for every k with 1 ≤ k ≤ 32 and every nonempty sequence of
KmerCodes with K = k and Code < 4^k, writing the sequence with a Writer in
compact mode and reading the resulting stream back with a Reader yields
exactly the same codes, in the same order, followed by end-of-stream.  (The
empty sequence is excluded: the lazy header makes the writer emit zero bytes
for it, and `NewReader` then fails at the magic read, see the
counterexample.) -/
theorem c1_compact_roundtrip (k : Nat) (codes : List KmerCode)
    (hk1 : 1 ≤ k) (hk2 : k ≤ 32) (hne : codes ≠ [])
    (hcodes : ∀ kc ∈ codes, kc.K = k ∧ kc.Code < 4 ^ k) :
    (writeAll (compactWriter k) codes).2 = none ∧
      readBack (writeAll (compactWriter k) codes).1.out
        codes.length = some codes := by
  obtain ⟨kc, rest, rfl⟩ := List.exists_cons_of_ne_nil hne
  obtain ⟨hkcK, hkclt⟩ := hcodes kc (by simp)
  -- writer side
  rw [writeAll, write_first_compact k kc hkcK]
  simp only []
  rw [writeAll_compact rest _ rfl rfl (fun c hc => by simpa using (hcodes c (by simp [hc])).1)]
  simp only []
  refine ⟨trivial, ?_⟩
  -- reader side
  have hout : writerHeaderBytes (compactWriter k) ++
        (natToBE 8 (kc.Code % 2 ^ 64)).drop (8 - (k + 3) / 4) ++
        bodyBytes ((k + 3) / 4) rest
      = writerHeaderBytes (compactWriter k) ++
        bodyBytes ((k + 3) / 4) (kc :: rest) := by
    rw [bodyBytes_cons, List.append_assoc]
  rw [readBack, hout]
  have hhdr := newReader_writer_header (compactWriter k)
    (bodyBytes ((k + 3) / 4) (kc :: rest)) rfl (by simpa [compactWriter] using knat_lt k hk2)
  rw [hhdr]
  simp only []
  have hrdN := readN_compact (kc :: rest)
    { MainVersion := 0, MinorVersion := 2, K := (compactWriter k).K, Compact := true,
      bufsize := ((compactWriter k).K + 3) / 4,
      stream := bodyBytes ((k + 3) / 4) (kc :: rest), size := 0 }
    hk2 hcodes rfl rfl rfl (by simp [compactWriter])
  rw [hrdN]
  simp only []
  rw [read_eof (k := k) _ hk1 rfl (by simp [compactWriter]) rfl]

theorem beToNat_foldl (acc : Nat) (l : List Nat) :
    l.foldl (fun a b => a * 256 + b) acc = acc * 256 ^ l.length + beToNat l := by
  induction l generalizing acc with
  | nil => simp [beToNat]
  | cons x l ih =>
    rw [List.foldl_cons, ih (acc * 256 + x)]
    have hx : beToNat (x :: l) = (0 * 256 + x) * 256 ^ l.length + beToNat l := by
      rw [beToNat, List.foldl_cons, ih (0 * 256 + x)]
    rw [hx]
    simp only [List.length_cons, pow_succ]
    ring

theorem beToNat_lt_pow (l : List Nat) (h : ∀ b ∈ l, b < 256) :
    beToNat l < 256 ^ l.length := by
  induction l with
  | nil => simp [beToNat]
  | cons x l ih =>
    have hx : beToNat (x :: l) = x * 256 ^ l.length + beToNat l := by
      rw [beToNat, List.foldl_cons, beToNat_foldl]
      ring_nf
    rw [hx, List.length_cons, pow_succ]
    have h1 : x < 256 := h x (by simp)
    have h2 : beToNat l < 256 ^ l.length := ih fun b hb => h b (by simp [hb])
    calc x * 256 ^ l.length + beToNat l
        < x * 256 ^ l.length + 256 ^ l.length := by omega
      _ = (x + 1) * 256 ^ l.length := by ring
      _ ≤ 256 * 256 ^ l.length := by
          exact Nat.mul_le_mul_right _ (by omega)
      _ = 256 ^ l.length * 256 := by ring

/-- C1 (counterexample): for the empty sequence the compact writer emits
zero bytes (the header is lazy), so opening the resulting stream fails and
the round trip does not yield the (zero) codes followed by end-of-stream. -/
theorem c1_roundtrip_counterexample :
    (writeAll (compactWriter 1) []).1.out = [] ∧
      newReader (writeAll (compactWriter 1) []).1.out = .error .eof ∧
      readBack (writeAll (compactWriter 1) []).1.out 0 = none := by
  exact ⟨rfl, rfl, rfl⟩

/-- C1 witness at k = 4 and three concrete codes. -/
theorem c1_compact_roundtrip_witness :
    (writeAll (compactWriter 4) [⟨3, 4⟩, ⟨0, 4⟩, ⟨255, 4⟩]).2 = none ∧
      readBack (writeAll (compactWriter 4) [⟨3, 4⟩, ⟨0, 4⟩, ⟨255, 4⟩]).1.out 3
        = some [⟨3, 4⟩, ⟨0, 4⟩, ⟨255, 4⟩] := by
  have h := c1_compact_roundtrip 4 [⟨3, 4⟩, ⟨0, 4⟩, ⟨255, 4⟩]
    (by decide) (by decide) (by decide) (by decide)
  simpa using h

/-- C6: `NewReader` fails with `ErrInvalidFileFormat` on every stream of at
least 8 bytes whose first 8 bytes differ anywhere from the magic literal
(returning no Reader), and succeeds whenever the first 8 bytes equal the
magic and 24 further metadata bytes are available. -/
theorem c6_magic_validation (s : List Nat) :
    (8 ≤ s.length → s.take 8 ≠ magicBytes → newReader s = .error .invalidFileFormat) ∧
      (s.take 8 = magicBytes → 32 ≤ s.length → isOkE (newReader s) = true) := by
  constructor
  · intro h8 hneq
    have h1 : readBytes 8 s = .ok (s.take 8, s.drop 8) := by
      rw [readBytes, if_pos h8]
    rw [newReader, h1]
    simp only []
    rw [if_pos hneq]
  · intro hmagic h32
    have h8 : 8 ≤ s.length := by omega
    have h1 : readBytes 8 s = .ok (s.take 8, s.drop 8) := by
      rw [readBytes, if_pos h8]
    rw [newReader, h1]
    simp only []
    rw [if_neg (by simp [hmagic])]
    have h24 : readBytes 24 (s.drop 8) = .ok ((s.drop 8).take 24, (s.drop 8).drop 24) := by
      rw [readBytes, if_pos (by simp; omega)]
    rw [h24]
    rfl

/-- C6 witness: a 32-byte all-zero stream is rejected with the format error,
and magic followed by 24 metadata bytes opens successfully. -/
theorem c6_magic_validation_witness :
    newReader (List.replicate 32 0) = .error .invalidFileFormat ∧
      isOkE (newReader (magicBytes ++ List.replicate 24 0)) = true := by
  exact ⟨(c6_magic_validation (List.replicate 32 0)).1 (by decide) (by decide),
    (c6_magic_validation (magicBytes ++ List.replicate 24 0)).2 (by decide) (by decide)⟩

/-- C7: `Writer.Write` returns the `KMismatch` error exactly when the code's
K differs from the writer's fixed K, and on that error the writer's state is
unchanged — no header or body bytes are emitted, `wroteHeader` stays unset,
and `size` is not incremented (the whole state is equal). -/
theorem c7_kmismatch (w : Writer) (kc : KmerCode) :
    ((w.write kc).2 = some .kMismatch ↔ w.K ≠ kc.K) ∧
      (w.K ≠ kc.K → (w.write kc).1 = w) := by
  by_cases h : w.K = kc.K <;> simp [Writer.write, h]

/-- C7 witness: a writer with K = 3 rejects a code with K = 5 unchanged. -/
theorem c7_kmismatch_witness :
    ((newWriter 3).write ⟨0, 5⟩).2 = some WErr.kMismatch ∧
      ((newWriter 3).write ⟨0, 5⟩).1 = newWriter 3 := by
  have h := c7_kmismatch (newWriter 3) ⟨0, 5⟩
  exact ⟨h.1.mpr (by decide), h.2 (by decide)⟩

/-- C4 (counterexample): a writer on which no Write was ever made emits zero
bytes even after Flush — not a header-only file, since the header image is
nonempty. -/
theorem c4_counterexample :
    ((newWriter 5).flush).1.out = [] ∧ writerHeaderBytes (newWriter 5) ≠ [] := by
  exact ⟨rfl, by decide⟩

/-- C4 (amended): if a Writer is created and no successful Write is ever
made on it (including when Flush is called, and including a Write rejected
by the K check), the writer has emitted zero bytes; the header (magic plus
the three metadata fields) appears only upon the first successful Write,
followed by that record's body. -/
theorem c4_lazy_header_empty (k : Nat) (compact : Bool) (kc : KmerCode) :
    (Writer.flush { newWriter k with Compact := compact }
        = ({ newWriter k with Compact := compact }, none)) ∧
      (kc.K ≠ k → (Writer.write { newWriter k with Compact := compact } kc).1.out = []) ∧
      (kc.K = k → (Writer.write { newWriter k with Compact := compact } kc).1.out =
        writerHeaderBytes { newWriter k with Compact := compact } ++
          (if compact then (natToBE 8 (kc.Code % 2 ^ 64)).drop (8 - (k + 3) / 4)
           else natToBE 8 (kc.Code % 2 ^ 64))) := by
  refine ⟨rfl, fun h => ?_, fun h => ?_⟩
  · rw [Writer.write, if_pos (by simp [newWriter]; exact fun hh => h hh.symm)]
    rfl
  · rw [Writer.write, if_neg (by simp [newWriter, h])]
    cases compact <;> simp [newWriter]

/-- C4 witness: concrete instances of the flush, failed-write and
first-write clauses at k = 2 in compact mode. -/
theorem c4_lazy_header_empty_witness :
    (Writer.write { newWriter 2 with Compact := true } ⟨0, 7⟩).1.out = [] ∧
      (Writer.write { newWriter 2 with Compact := true } ⟨5, 2⟩).1.out =
        writerHeaderBytes { newWriter 2 with Compact := true } ++
          (natToBE 8 (5 % 2 ^ 64)).drop (8 - (2 + 3) / 4) := by
  have h1 := (c4_lazy_header_empty 2 true ⟨0, 7⟩).2.1 (by decide)
  have h2 := (c4_lazy_header_empty 2 true ⟨5, 2⟩).2.2 (by decide)
  exact ⟨h1, by simpa using h2⟩

/-- C5 (counterexample): the Reader does not enforce the 2K-bit invariant:
on a compact stream with k = 1 whose record byte is 0xFF, Read succeeds and
returns Code = 255, which has bits set above the low 2 bits. -/
theorem c5_counterexample :
    firstReadCode c5Stream = some ⟨255, 1⟩ ∧ ¬ ((255 : Nat) < 2 ^ (2 * 1)) := by
  exact ⟨rfl, by decide⟩

/-- C5 (amended): a successful compact Read returns the big-endian value of
the bytes it consumed, unmasked: Code equals the decoded chunk, is bounded
by 2^(8·bufsize), and satisfies the 2K-bit invariant exactly when the
stream's own record value is below 4^K (as in Writer-produced streams) —
the Reader preserves the invariant but does not enforce it. -/
theorem c5_read_no_mask (r : Reader) (kc : KmerCode) (r' : Reader)
    (hc : r.Compact = true) (_hb : r.bufsize ≤ 8)
    (hbytes : ∀ b ∈ r.stream, b < 256)
    (h : r.read = .ok (kc, r')) :
    kc.K = r.K ∧ kc.Code = beToNat (r.stream.take r.bufsize) ∧
      kc.Code < 2 ^ (8 * r.bufsize) ∧
      (beToNat (r.stream.take r.bufsize) < 4 ^ r.K → kc.Code < 2 ^ (2 * r.K)) := by
  rw [Reader.read, if_pos hc, readBytes] at h
  by_cases hlen : r.bufsize ≤ r.stream.length
  · rw [if_pos hlen] at h
    simp only [Except.ok.injEq, Prod.mk.injEq] at h
    obtain ⟨hkc, -⟩ := h
    have hcode : kc.Code = beToNat (r.stream.take r.bufsize) := by
      rw [← hkc]
      simp only []
      rw [beToNat_replicate_zero_append]
    have hK : kc.K = r.K := by rw [← hkc]
    have htlen : (r.stream.take r.bufsize).length = r.bufsize := by
      simp [hlen]
    have hbound : beToNat (r.stream.take r.bufsize) < 2 ^ (8 * r.bufsize) := by
      have := beToNat_lt_pow (r.stream.take r.bufsize)
        (fun b hbm => hbytes b (List.take_subset _ _ hbm))
      rw [htlen] at this
      calc beToNat (r.stream.take r.bufsize) < 256 ^ r.bufsize := this
        _ = 2 ^ (8 * r.bufsize) := by rw [pow_mul]; norm_num
    refine ⟨hK, hcode, by rw [hcode]; exact hbound, fun hsmall => ?_⟩
    rw [hcode]
    calc beToNat (r.stream.take r.bufsize) < 4 ^ r.K := hsmall
      _ = 2 ^ (2 * r.K) := by rw [pow_mul]; norm_num
  · rw [if_neg hlen] at h
    by_cases h0 : r.stream.length = 0 <;> simp [h0] at h

/-- C5 witness: the unmaskedness clauses at a concrete compact reader with
K = 1 and stream `[255]`. -/
theorem c5_read_no_mask_witness :
    (⟨255, 1⟩ : KmerCode).K = (⟨0, 2, 1, true, 1, [255], 0⟩ : Reader).K ∧
      (⟨255, 1⟩ : KmerCode).Code =
        beToNat ((⟨0, 2, 1, true, 1, [255], 0⟩ : Reader).stream.take
          (⟨0, 2, 1, true, 1, [255], 0⟩ : Reader).bufsize) ∧
      (⟨255, 1⟩ : KmerCode).Code <
        2 ^ (8 * (⟨0, 2, 1, true, 1, [255], 0⟩ : Reader).bufsize) ∧
      (beToNat ((⟨0, 2, 1, true, 1, [255], 0⟩ : Reader).stream.take
          (⟨0, 2, 1, true, 1, [255], 0⟩ : Reader).bufsize) <
          4 ^ (⟨0, 2, 1, true, 1, [255], 0⟩ : Reader).K →
        (⟨255, 1⟩ : KmerCode).Code < 2 ^ (2 * (⟨0, 2, 1, true, 1, [255], 0⟩ : Reader).K)) :=
  c5_read_no_mask ⟨0, 2, 1, true, 1, [255], 0⟩ ⟨255, 1⟩ ⟨0, 2, 1, true, 1, [], 1⟩
    rfl (by decide) (by decide) rfl

/-- C9: for 1 ≤ k ≤ 32 the compact per-code width used by Reader and Writer
is floor((k+3)/4) bytes, this equals ceil(2k/8), it holds all 2k significant
bits (8·floor((k+3)/4) ≥ 2k), and a compact Write emits exactly that many
body bytes per code. -/
theorem c9_compact_width (k : Nat) (hk1 : 1 ≤ k) (hk2 : k ≤ 32) :
    ((k + 3) / 4 = (2 * k + 7) / 8) ∧
      2 * k ≤ 8 * ((k + 3) / 4) ∧
      (newWriter k).bufsize = (k + 3) / 4 ∧
      (∀ (s : List Nat) (r : Reader), newReader s = .ok r → r.bufsize = (r.K + 3) / 4) ∧
      (∀ (w : Writer) (kc : KmerCode), w.Compact = true → w.wroteHeader = true →
        w.bufsize = (k + 3) / 4 →
        kc.K = w.K → ((w.write kc).1.out).length = w.out.length + (k + 3) / 4) := by
  refine ⟨by omega, by omega, rfl, ?_, ?_⟩
  · intro s r h
    rw [newReader] at h
    split at h
    · cases h
    · split at h
      · cases h
      · split at h
        · cases h
        · simp only [Except.ok.injEq] at h
          subst h
          rfl
  · intro w kc hcpt hh hbw hkK
    rw [write_compact_step w kc hh hcpt hkK]
    simp only [List.length_append]
    have hlen : ((natToBE 8 (kc.Code % 2 ^ 64)).drop (8 - w.bufsize)).length = w.bufsize := by
      rw [List.length_drop, natToBE_length, hbw]
      omega
    rw [hlen, hbw]

/-- C9 witness: the arithmetic clauses at k = 5. -/
theorem c9_compact_width_witness :
    ((5 + 3) / 4 = (2 * 5 + 7) / 8) ∧ 2 * 5 ≤ 8 * ((5 + 3) / 4) := by
  obtain ⟨h1, h2, -⟩ := c9_compact_width 5 (by decide) (by decide)
  exact ⟨h1, h2⟩

theorem unionCodes_append (xs ys seen out : List Nat) :
    unionCodes (xs ++ ys) seen out =
      unionCodes ys (unionCodes xs seen out).1 (unionCodes xs seen out).2 := by
  induction xs generalizing seen out with
  | nil => simp [unionCodes]
  | cons c cs ih =>
    by_cases h : c ∈ seen <;> simp [unionCodes, h, ih]

theorem unionFiles_flatten (files : List (List Nat)) (seen out : List Nat) :
    unionFiles files seen out = unionCodes files.flatten seen out := by
  induction files generalizing seen out with
  | nil => simp [unionFiles, unionCodes]
  | cons f rest ih =>
    rw [unionFiles, List.flatten_cons, unionCodes_append]
    exact ih _ _

theorem unionCodes_out (codes : List Nat) :
    ∀ seen out, (unionCodes codes seen out).2 =
      out ++ firstSeen (codes.filter fun x => x ∉ seen) := by
  induction codes with
  | nil => intro seen out; simp [unionCodes, firstSeen]
  | cons c cs ih =>
    intro seen out
    by_cases h : c ∈ seen
    · rw [unionCodes, if_pos h, ih]
      simp [h]
    · rw [unionCodes, if_neg h, ih]
      have hfilter : (cs.filter fun x => x ∉ c :: seen)
          = (cs.filter fun x => x ∉ seen).filter fun x => x ≠ c := by
        rw [List.filter_filter]
        apply List.filter_congr
        intro x _
        by_cases hx : x = c <;> by_cases hs : x ∈ seen <;> simp [hx, hs, h]
      have hcons : (c :: cs).filter (fun x => x ∉ seen) = c :: cs.filter fun x => x ∉ seen := by
        simp [h]
      rw [hfilter, hcons, firstSeen]
      simp

theorem firstSeen_nodup_mem (n : Nat) :
    ∀ l : List Nat, l.length ≤ n →
      (firstSeen l).Nodup ∧ ∀ c, c ∈ firstSeen l ↔ c ∈ l := by
  induction n with
  | zero =>
    intro l hl
    have : l = [] := List.length_eq_zero.mp (by omega)
    subst this
    simp [firstSeen]
  | succ n ih =>
    intro l hl
    match l with
    | [] => simp [firstSeen]
    | c :: cs =>
      have hlen : (cs.filter fun x => x ≠ c).length ≤ n := by
        have := List.length_filter_le (fun x => x ≠ c) cs
        simp at hl
        omega
      obtain ⟨hnd, hmem⟩ := ih _ hlen
      rw [firstSeen]
      constructor
      · refine List.nodup_cons.mpr ⟨?_, hnd⟩
        intro hc
        have := (hmem c).mp hc
        simp at this
      · intro c'
        rw [List.mem_cons, hmem c']
        by_cases h : c' = c <;> simp [h]

/-- C3: in union over any list of input files, the output sequence is
exactly the distinct codes of all inputs in first-seen order; each code is
written exactly once, at its first occurrence in the concatenated stream —
the output after consuming any prefix of the stream is already the
first-seen dedup of that prefix. -/
theorem c3_union_first_seen (files : List (List Nat)) :
    unionOutput files = firstSeen files.flatten ∧
      (∀ pfx sfx : List Nat, files.flatten = pfx ++ sfx →
        (unionCodes pfx [] []).2 = firstSeen pfx) ∧
      (unionOutput files).Nodup ∧
      (∀ c, c ∈ unionOutput files ↔ c ∈ files.flatten) ∧
      (∀ c, c ∈ files.flatten → (unionOutput files).count c = 1) := by
  have hout : ∀ l : List Nat, (unionCodes l [] []).2 = firstSeen l := by
    intro l
    rw [unionCodes_out]
    simp
  have h1 : unionOutput files = firstSeen files.flatten := by
    rw [unionOutput, unionFiles_flatten, hout]
  obtain ⟨hnd, hmem⟩ := firstSeen_nodup_mem files.flatten.length files.flatten le_rfl
  refine ⟨h1, fun pfx sfx _ => hout pfx, by rw [h1]; exact hnd,
    fun c => by rw [h1]; exact hmem c, fun c hc => ?_⟩
  rw [h1]
  exact List.count_eq_one_of_mem hnd ((hmem c).mpr hc)

/-- C3 witness: a concrete two-file instance exercising the conditional
clauses. -/
theorem c3_union_first_seen_witness :
    (2 ∈ unionOutput [[1, 2], [2, 3]] ↔ 2 ∈ [[1, 2], [2, 3]].flatten) ∧
      (unionOutput [[1, 2], [2, 3]]).count 2 = 1 := by
  exact ⟨(c3_union_first_seen [[1, 2], [2, 3]]).2.2.2.1 2,
    (c3_union_first_seen [[1, 2], [2, 3]]).2.2.2.2 2 (by decide)⟩

theorem mget_mset (m : List (Nat × Bool)) (c : Nat) (v : Bool) (c' : Nat) :
    mget (mset m c v) c' = if c' = c then some v else mget m c' := by
  induction m with
  | nil => by_cases h : c' = c <;> simp [mset, mget, h, Ne.symm]
  | cons p rest ih =>
    obtain ⟨k, w⟩ := p
    by_cases hk : k = c
    · subst hk
      by_cases h : c' = k <;> simp [mset, mget, h, Ne.symm]
    · rw [mset, if_neg hk]
      by_cases h : k = c'
      · subst h
        simp [mget, hk]
      · simp [mget, h, ih]

theorem mget_loadFirst (codes : List Nat) :
    ∀ m c, mget (loadFirst codes m) c =
      if c ∈ codes then some false else mget m c := by
  induction codes with
  | nil => intro m c; simp [loadFirst]
  | cons x cs ih =>
    intro m c
    rw [loadFirst, ih]
    by_cases hcs : c ∈ cs
    · simp [hcs]
    · by_cases hx : c = x <;> simp [hcs, hx, mget_mset]

theorem mget_markSeen_none (codes : List Nat) :
    ∀ m c, mget m c = none → mget (markSeen codes m) c = none := by
  induction codes with
  | nil => intro m c h; simpa [markSeen] using h
  | cons x cs ih =>
    intro m c h
    rw [markSeen]
    apply ih
    by_cases hx : (mget m x).isSome
    · rw [if_pos hx, mget_mset]
      have hcx : ¬ (c = x) := by
        intro hh
        subst hh
        rw [h] at hx
        simp at hx
      rw [if_neg hcx]
      exact h
    · rw [if_neg hx]
      exact h

theorem mget_markSeen_some (codes : List Nat) :
    ∀ m c b, mget m c = some b →
      mget (markSeen codes m) c = some (b || decide (c ∈ codes)) := by
  induction codes with
  | nil => intro m c b h; simpa [markSeen] using h
  | cons x cs ih =>
    intro m c b h
    rw [markSeen]
    by_cases hcx : c = x
    · subst hcx
      have hx : (mget m c).isSome := by rw [h]; rfl
      rw [if_pos hx]
      have := ih (mset m c true) c true (by rw [mget_mset]; simp)
      rw [this]
      simp
    · have hpass : mget (if (mget m x).isSome then mset m x true else m) c = some b := by
        by_cases hx : (mget m x).isSome
        · rw [if_pos hx, mget_mset, if_neg hcx]
          exact h
        · rw [if_neg hx]
          exact h
      rw [ih _ c b hpass]
      simp [hcx]

theorem mget_mem (m : List (Nat × Bool)) (k : Nat) (v : Bool) (h : (k, v) ∈ m) :
    (mget m k).isSome := by
  induction m with
  | nil => cases h
  | cons p rest ih =>
    obtain ⟨k', v'⟩ := p
    rcases List.mem_cons.mp h with h1 | h1
    · cases h1
      simp [mget]
    · by_cases hk : k' = k
      · simp [mget, hk]
      · rw [mget, if_neg hk]
        exact ih h1

theorem mget_eq_none_of_not_mem_keys (m : List (Nat × Bool)) (c : Nat)
    (h : c ∉ m.map Prod.fst) : mget m c = none := by
  induction m with
  | nil => rfl
  | cons p rest ih =>
    obtain ⟨k, v⟩ := p
    simp at h
    rw [mget, if_neg (by simpa using fun hh => h.1 hh.symm)]
    exact ih (by simpa using h.2)

theorem mem_keys_mset (m : List (Nat × Bool)) (c : Nat) (v : Bool) (d : Nat)
    (h : d ∈ (mset m c v).map Prod.fst) : d ∈ m.map Prod.fst ∨ d = c := by
  induction m with
  | nil => simp [mset] at h; simp [h]
  | cons p rest ih =>
    obtain ⟨k, w⟩ := p
    by_cases hk : k = c
    · rw [mset, if_pos hk] at h
      simp at h ⊢
      rcases h with h | h
      · right; exact h
      · left; right; exact h
    · rw [mset, if_neg hk] at h
      simp at h ⊢
      rcases h with h | h
      · left; left; exact h
      · rcases ih (by simpa using h) with h2 | h2
        · left; right; simpa using h2
        · right; exact h2

theorem keysNodup_mset (m : List (Nat × Bool)) (c : Nat) (v : Bool)
    (h : keysNodup m) : keysNodup (mset m c v) := by
  induction m with
  | nil => simp [mset, keysNodup]
  | cons p rest ih =>
    obtain ⟨k, w⟩ := p
    rw [keysNodup, List.map_cons, List.nodup_cons] at h
    by_cases hk : k = c
    · rw [keysNodup, mset, if_pos hk, List.map_cons, List.nodup_cons]
      exact ⟨by rw [← hk]; exact h.1, h.2⟩
    · rw [keysNodup, mset, if_neg hk, List.map_cons, List.nodup_cons]
      refine ⟨fun hmem => ?_, ih h.2⟩
      rcases mem_keys_mset rest c v k hmem with h2 | h2
      · exact h.1 h2
      · exact hk h2

theorem keysNodup_loadFirst (codes : List Nat) :
    ∀ m, keysNodup m → keysNodup (loadFirst codes m) := by
  induction codes with
  | nil => intro m h; exact h
  | cons c cs ih =>
    intro m h
    exact ih _ (keysNodup_mset m c false h)

theorem keysNodup_markSeen (codes : List Nat) :
    ∀ m, keysNodup m → keysNodup (markSeen codes m) := by
  induction codes with
  | nil => intro m h; exact h
  | cons c cs ih =>
    intro m h
    rw [markSeen]
    by_cases hx : (mget m c).isSome
    · rw [if_pos hx]
      exact ih _ (keysNodup_mset m c true h)
    · rw [if_neg hx]
      exact ih _ h

theorem keysNodup_sweep (m : List (Nat × Bool)) (h : keysNodup m) :
    keysNodup (sweep m) := by
  rw [keysNodup]
  exact h.sublist (List.Sublist.map Prod.fst (List.filter_sublist m))

theorem mget_sweep (m : List (Nat × Bool)) (h : keysNodup m) (c : Nat) :
    mget (sweep m) c = if mget m c = some false then some false else none := by
  induction m with
  | nil => simp [sweep, mget]
  | cons p rest ih =>
    obtain ⟨k, v⟩ := p
    rw [keysNodup, List.map_cons, List.nodup_cons] at h
    have ihr := ih h.2
    by_cases hk : k = c
    · subst hk
      have hrest : mget (sweep rest) k = none := by
        apply mget_eq_none_of_not_mem_keys
        intro hmem
        exact h.1 ((List.Sublist.map Prod.fst (List.filter_sublist rest)).subset hmem)
      cases v with
      | false => simp [sweep, mget]
      | true =>
        have : sweep ((k, true) :: rest) = sweep rest := by
          simp [sweep]
        rw [this, hrest]
        simp [mget]
    · have hstep : mget ((k, v) :: rest) c = mget rest c := by
        rw [mget, if_neg hk]
      cases v with
      | false =>
        have : sweep ((k, false) :: rest) = (k, false) :: sweep rest := by
          simp [sweep]
        rw [this, mget, if_neg hk, hstep, ihr]
      | true =>
        have : sweep ((k, true) :: rest) = sweep rest := by
          simp [sweep]
        rw [this, hstep, ihr]

theorem MInv_isSome {m : List (Nat × Bool)} {A P : Nat → Prop}
    (h : MInv m A P) (c : Nat) : (mget m c).isSome = true ↔ A c := by
  obtain ⟨-, hiff⟩ := h
  obtain ⟨ht, hf⟩ := hiff c
  constructor
  · intro hsome
    cases hval : mget m c with
    | none => rw [hval] at hsome; simp at hsome
    | some b =>
      cases b with
      | true => exact (ht.mp hval).1
      | false => exact (hf.mp hval).1
  · intro hA
    by_cases hP : P c
    · rw [ht.mpr ⟨hA, hP⟩]; rfl
    · rw [hf.mpr ⟨hA, hP⟩]; rfl

theorem MInv_empty_iff {m : List (Nat × Bool)} {A P : Nat → Prop}
    (h : MInv m A P) : m.isEmpty = true ↔ ∀ c, ¬ A c := by
  constructor
  · intro hemp c hA
    have hm : m = [] := List.isEmpty_iff.mp hemp
    have := (MInv_isSome h c).mpr hA
    rw [hm] at this
    simp [mget] at this
  · intro hall
    cases m with
    | nil => rfl
    | cons p rest =>
      exfalso
      obtain ⟨k, v⟩ := p
      exact hall k ((MInv_isSome h k).mp (by simp [mget]))

theorem MInv_loadFirst_empty (codes : List Nat) :
    MInv (loadFirst codes []) (fun c => c ∈ codes) (fun _ => False) := by
  refine ⟨keysNodup_loadFirst codes [] (by simp [keysNodup]), fun c => ?_⟩
  rw [mget_loadFirst]
  by_cases h : c ∈ codes <;> simp [h, mget]

theorem MInv_markSeen {m : List (Nat × Bool)} {A P : Nat → Prop}
    (h : MInv m A P) (codes : List Nat) :
    MInv (markSeen codes m) A (fun c => P c ∨ c ∈ codes) := by
  obtain ⟨hnd, hiff⟩ := h
  refine ⟨keysNodup_markSeen codes m hnd, fun c => ?_⟩
  obtain ⟨ht, hf⟩ := hiff c
  cases hval : mget m c with
  | none =>
    have hnone := mget_markSeen_none codes m c hval
    have hnA : ¬ A c := by
      intro hA
      have := (MInv_isSome ⟨hnd, hiff⟩ c).mpr hA
      rw [hval] at this
      simp at this
    simp [hnone, hnA]
  | some b =>
    have hsome := mget_markSeen_some codes m c b hval
    cases b with
    | true =>
      obtain ⟨hA, hP⟩ := ht.mp hval
      simp at hsome
      simp [hsome, hA, hP]
    | false =>
      obtain ⟨hA, hnP⟩ := hf.mp hval
      by_cases hmem : c ∈ codes
      · simp [hmem] at hsome
        simp [hsome, hA, hmem]
      · simp [hmem] at hsome
        simp [hsome, hA, hnP, hmem]

theorem MInv_sweep {m : List (Nat × Bool)} {A P : Nat → Prop}
    (h : MInv m A P) :
    MInv (sweep m) (fun c => A c ∧ ¬ P c) (fun _ => False) := by
  obtain ⟨hnd, hiff⟩ := h
  refine ⟨keysNodup_sweep m hnd, fun c => ?_⟩
  rw [mget_sweep m hnd c]
  obtain ⟨ht, hf⟩ := hiff c
  by_cases hfv : mget m c = some false
  · simp [hfv, hf.mp hfv]
  · rw [if_neg hfv]
    constructor
    · simp
    · rw [hf] at hfv
      simp [hfv]

/-- The subsequent-file phase of diff's loop: starting past the first file
with a map satisfying the invariant, and with no remaining file sharing the
first file's path, the keys of the final map are exactly the invariant's
candidates that are unmarked and absent from every remaining file —
independently of where the checkpoints fall, because the last index always
triggers a sweep. -/
theorem diffLoop_spec (p0 : Nat) (nfiles ci : Nat) (rest : List DFile) :
    ∀ (i : Nat) (m : List (Nat × Bool)) (A P : Nat → Prop),
      MInv m A P →
      (∀ f ∈ rest, f.path ≠ p0) →
      i + rest.length = nfiles →
      rest ≠ [] →
      ∀ c, ((mget (diffLoop p0 nfiles ci rest i false m).1 c).isSome = true) ↔
        (A c ∧ ¬ P c ∧ ∀ f ∈ rest, c ∉ f.codes) := by
  induction rest with
  | nil =>
    intro i m A P _ _ _ hne
    cases hne rfl
  | cons f rest' ih =>
    intro i m A P hinv hpaths hlen _
    rw [diffLoop]
    rw [if_neg (by simp [hpaths f (by simp)])]
    rw [if_neg (by simp)]
    have hinv₁ := MInv_markSeen hinv f.codes
    cases rest' with
    | nil =>
      have hi : i = nfiles - 1 := by simp at hlen; omega
      rw [if_neg (by push_neg; intro _; left; exact hi)]
      have hinv₂ := MInv_sweep hinv₁
      by_cases hemp : (sweep (markSeen f.codes m)).isEmpty = true
      · rw [if_pos hemp]
        intro c
        have hall := (MInv_empty_iff hinv₂).mp hemp c
        rw [MInv_isSome hinv₂ c]
        constructor
        · intro h
          exact absurd h hall
        · rintro ⟨hA, hnP, hmem⟩
          exact absurd ⟨hA, fun hor => hor.elim hnP (hmem f (by simp))⟩ hall
      · rw [if_neg hemp, diffLoop]
        intro c
        rw [MInv_isSome hinv₂ c]
        constructor
        · rintro ⟨hA, hno⟩
          rw [not_or] at hno
          refine ⟨hA, hno.1, fun f' hf' => ?_⟩
          rw [List.mem_singleton] at hf'
          subst hf'
          exact hno.2
        · rintro ⟨hA, hnP, hmem⟩
          exact ⟨hA, fun hor => hor.elim hnP (hmem f (by simp))⟩
    | cons g rest'' =>
      have hlen' : (i + 1) + (g :: rest'').length = nfiles := by simp at hlen ⊢; omega
      have hpaths' : ∀ h ∈ g :: rest'', h.path ≠ p0 := fun h hm => hpaths h (by simp [hm])
      by_cases hskip : 1 < ci ∧ ¬ (i = nfiles - 1 ∨ i % ci = 0)
      · rw [if_pos hskip]
        intro c
        rw [ih (i + 1) _ A (fun c => P c ∨ c ∈ f.codes) hinv₁ hpaths' hlen' (by simp) c]
        simp only [not_or, List.forall_mem_cons]
        tauto
      · rw [if_neg hskip]
        have hinv₂ := MInv_sweep hinv₁
        by_cases hemp : (sweep (markSeen f.codes m)).isEmpty = true
        · rw [if_pos hemp]
          intro c
          have hall := (MInv_empty_iff hinv₂).mp hemp c
          rw [MInv_isSome hinv₂ c]
          constructor
          · intro h
            exact absurd h hall
          · rintro ⟨hA, hnP, hmem⟩
            have hf : c ∉ f.codes := hmem f (by simp)
            exact absurd ⟨hA, fun hor => hor.elim hnP hf⟩ hall
        · rw [if_neg hemp]
          intro c
          rw [ih (i + 1) _ (fun c => A c ∧ ¬ (P c ∨ c ∈ f.codes)) (fun _ => False)
            hinv₂ hpaths' hlen' (by simp) c]
          simp only [not_or, not_false_iff, true_and, List.forall_mem_cons]
          tauto

/-- C2 (counterexample): with the same path appearing first and last,
`[a, b, a]` over one shared code, the final mapping depends on
check_interval — interval 1 sweeps after file b and ends empty, while
interval 2 skips that sweep and the trailing duplicate file is skipped, so
the marked code survives in the mapping; the claimed set (codes of the first
file in none of the subsequent files, here empty) also fails at interval 2. -/
theorem c2_counterexample :
    diffMember [⟨0, [1]⟩, ⟨1, [1]⟩, ⟨0, [1]⟩] 2 1 = true ∧
      diffMember [⟨0, [1]⟩, ⟨1, [1]⟩, ⟨0, [1]⟩] 1 1 = false ∧
      (1 : Nat) ∈ [1] := by
  exact ⟨rfl, rfl, by decide⟩

/-- C2 (amended): for every check_interval ≥ 1 and every list of N ≥ 2
input files in which no subsequent file's path equals the first file's path
(so the skip of repeated first files never fires), the keys of the final
diff mapping are exactly the codes of the first file appearing in none of
the subsequent files, and this final set is identical for all values of
check_interval, early empty-stop included. -/
theorem c2_diff_checkpoint (f0 : DFile) (rest : List DFile) (ci ci' : Nat)
    (hne : rest ≠ []) (hci : 1 ≤ ci) (hci' : 1 ≤ ci')
    (hpaths : ∀ f ∈ rest, f.path ≠ f0.path) :
    (∀ c, diffMember (f0 :: rest) ci c = true ↔
      (c ∈ f0.codes ∧ ∀ f ∈ rest, c ∉ f.codes)) ∧
      (∀ c, diffMember (f0 :: rest) ci c = diffMember (f0 :: rest) ci' c) := by
  have main : ∀ cii, 1 ≤ cii → ∀ c, diffMember (f0 :: rest) cii c = true ↔
      (c ∈ f0.codes ∧ ∀ f ∈ rest, c ∉ f.codes) := by
    intro cii _ c
    rw [diffMember, diffRun]
    rw [diffLoop, if_neg (by simp), if_pos rfl]
    rw [diffLoop_spec f0.path (f0 :: rest).length cii rest 1 (loadFirst f0.codes [])
      (fun c => c ∈ f0.codes) (fun _ => False) (MInv_loadFirst_empty f0.codes)
      hpaths (by simp only [List.length_cons]; omega) hne c]
    simp
  refine ⟨main ci hci, fun c => ?_⟩
  rw [Bool.eq_iff_iff, main ci hci c, main ci' hci' c]

/-- C2 witness: a concrete two-file instance with distinct paths. -/
theorem c2_diff_checkpoint_witness :
    (diffMember [⟨0, [1, 2, 3]⟩, ⟨1, [2, 3]⟩] 5 1 = true ↔
      ((1 : Nat) ∈ [1, 2, 3] ∧ ∀ f ∈ [(⟨1, [2, 3]⟩ : DFile)], (1 : Nat) ∉ f.codes)) ∧
      diffMember [⟨0, [1, 2, 3]⟩, ⟨1, [2, 3]⟩] 5 1 =
        diffMember [⟨0, [1, 2, 3]⟩, ⟨1, [2, 3]⟩] 1 1 := by
  have h := c2_diff_checkpoint ⟨0, [1, 2, 3]⟩ [⟨1, [2, 3]⟩] 5 1
    (by simp) (by decide) (by decide) (by decide)
  exact ⟨h.1 1, h.2 1⟩

/-- C10: once the first file has been processed, every subsequent file whose
path equals the first file's path is skipped entirely by the diff loop; in
particular, for the same file path given twice the final mapping holds the
first file's full content rather than the empty set that files[0] −
files[1] would give. -/
theorem c10_diff_repeat_first (p0 : Nat) (nfiles ci : Nat) :
    (∀ (g : DFile) (rest : List DFile) (i : Nat) (m : List (Nat × Bool)),
      g.path = p0 →
      diffLoop p0 nfiles ci (g :: rest) i false m =
        diffLoop p0 nfiles ci rest (i + 1) false m) ∧
      (∀ (codes : List Nat) (c : Nat),
        diffMember [⟨p0, codes⟩, ⟨p0, codes⟩] ci c = true ↔ c ∈ codes) := by
  constructor
  · intro g rest i m hg
    rw [diffLoop, if_pos ⟨rfl, hg⟩]
  · intro codes c
    rw [diffMember, diffRun]
    rw [diffLoop, if_neg (by simp), if_pos rfl]
    rw [diffLoop, if_pos ⟨rfl, rfl⟩]
    rw [diffLoop]
    simp only []
    rw [mget_loadFirst]
    by_cases h : c ∈ codes <;> simp [h, mget]

/-- C10 witness: the skip equation at a concrete state, and the duplicated
single-code file pair yielding the full first file. -/
theorem c10_diff_repeat_first_witness :
    diffLoop 0 3 5 [⟨0, [7]⟩] 2 false [(1, true)] =
        diffLoop 0 3 5 [] 3 false [(1, true)] ∧
      diffMember [⟨0, [1, 2]⟩, ⟨0, [1, 2]⟩] 5 1 = true := by
  exact ⟨(c10_diff_repeat_first 0 3 5).1 ⟨0, [7]⟩ [] 2 [(1, true)] rfl,
    ((c10_diff_repeat_first 0 3 5).2 [1, 2] 1).mpr (by decide)⟩

theorem mem_emitClose (minLen : Nat) (start : Option Nat) (i : Nat)
    (out : List (Nat × Nat)) (s e : Nat) :
    (s, e) ∈ emitClose minLen start i out ↔
      (s, e) ∈ out ∨
        (∃ s₀, start = some s₀ ∧ s = s₀ ∧ e = i ∧ minLen ≤ i - s₀) := by
  cases start with
  | none => simp [emitClose]
  | some s₀ =>
    by_cases h : minLen ≤ i - s₀
    · rw [show emitClose minLen (some s₀) i out = out ++ [(s₀, i)] from by
        rw [emitClose, if_pos h]]
      rw [List.mem_append, List.mem_singleton, Prod.mk.injEq]
      constructor
      · rintro (hm | ⟨hs, he⟩)
        · exact Or.inl hm
        · exact Or.inr ⟨s₀, rfl, hs, he, h⟩
      · rintro (hm | ⟨s₁, hs₁, hs, he, -⟩)
        · exact Or.inl hm
        · obtain rfl : s₀ = s₁ := by injection hs₁
          exact Or.inr ⟨hs, he⟩
    · rw [show emitClose minLen (some s₀) i out = out from by
        rw [emitClose, if_neg h]]
      constructor
      · exact Or.inl
      · rintro (hm | ⟨s₁, hs₁, hs, he, hml⟩)
        · exact hm
        · obtain rfl : s₀ = s₁ := by injection hs₁
          omega

/-- Closing the current run at index `i` (because `i` breaks or the scan
ends there): under the loop invariant, the intervals admissible as a run
closing exactly at `i` are precisely the single latched one. -/
theorem closeNow_iff (k minLen : Nat) (fm : Bool) (ps : List GPos)
    (i c : Nat) (hk : 1 ≤ k) (hc : c ≤ i) (hin : i ≤ ps.length)
    (hgood : ∀ j, i - c ≤ j → j < i → breakAt fm ps j = false)
    (hmax : i - c = 0 ∨ breakAt fm ps (i - c - 1) = true)
    (hclose : i = ps.length ∨ breakAt fm ps i = true) (s e : Nat) :
    (ClosedRun k minLen fm ps s e ∧ e = i ∧ i - c ≤ s + 1 - k) ↔
      (k ≤ c ∧ s = i - c + (k - 1) ∧ e = i ∧ minLen ≤ i - s) := by
  constructor
  · rintro ⟨⟨hks, hse, hel, hrun, hlmax, -, hml⟩, he, hside⟩
    have hsk : s + 1 - k = i - c := by
      rcases Nat.lt_or_ge (i - c) (s + 1 - k) with hlt | hge
      · exfalso
        rcases hlmax with h0 | hbrk
        · omega
        · have hgf : breakAt fm ps (s - k) = false :=
            hgood (s - k) (by omega) (by omega)
          rw [hgf] at hbrk
          cases hbrk
      · omega
    exact ⟨by omega, by omega, he, by omega⟩
  · rintro ⟨hkc, hs, he, hml⟩
    have hsk : s + 1 - k = i - c := by omega
    refine ⟨⟨by omega, by omega, by omega, ?_, ?_, ?_, by omega⟩, he, by omega⟩
    · intro j hj1 hj2
      exact hgood j (by omega) (by omega)
    · rw [hsk]
      rcases hmax with h0 | hbrk
      · exact Or.inl h0
      · refine Or.inr ?_
        have hs2 : s - k = i - c - 1 := by omega
        rw [hs2]
        exact hbrk
    · rcases hclose with h0 | hbrk
      · exact Or.inl (by omega)
      · exact Or.inr (by rw [he]; exact hbrk)

/-- After a breaking position `i`, the runs still closable from `i+1` are
those avoiding `i` entirely. -/
theorem future_break_shift (k minLen : Nat) (fm : Bool) (ps : List GPos)
    (i c : Nat) (hbrk : breakAt fm ps i = true) (s e : Nat) :
    (ClosedRun k minLen fm ps s e ∧ i ≤ e ∧ i - c ≤ s + 1 - k ∧ e ≠ i) ↔
      (ClosedRun k minLen fm ps s e ∧ i + 1 ≤ e ∧ i + 1 ≤ s + 1 - k) := by
  constructor
  · rintro ⟨hcr, hie, -, hne⟩
    refine ⟨hcr, by omega, ?_⟩
    by_contra hlt
    have : breakAt fm ps i = false := hcr.2.2.2.1 i (by omega) (by omega)
    rw [this] at hbrk
    cases hbrk
  · rintro ⟨hcr, hie, hsk⟩
    exact ⟨hcr, by omega, by omega, by omega⟩

/-- A non-breaking position `i` cannot close a run, so the closable-future
set is unchanged apart from the counter bookkeeping. -/
theorem future_good_no_close (k minLen : Nat) (fm : Bool) (ps : List GPos)
    (i : Nat) (hin : i < ps.length) (hgoodi : breakAt fm ps i = false)
    (s e : Nat) (hcr : ClosedRun k minLen fm ps s e) (he : e = i) : False := by
  rcases hcr.2.2.2.2.2.1 with hlen | hbrk
  · omega
  · rw [he, hgoodi] at hbrk
    cases hbrk

/-- The loop invariant of the uniqs second pass, processed from position `i`
with `c` consecutive non-breaking positions behind it and `start` latched at
the position where `c` reached `k`: the intervals eventually in the output
are those already emitted plus every claim-shaped closed run compatible with
the state. -/
theorem uniqsScanAux_spec (k minLen : Nat) (fm : Bool) (ps : List GPos)
    (hk : 1 ≤ k) (rest : List GPos) :
    ∀ (i c : Nat) (start : Option Nat) (out : List (Nat × Nat)),
      rest = ps.drop i →
      i + rest.length = ps.length →
      c ≤ i →
      (∀ j, i - c ≤ j → j < i → breakAt fm ps j = false) →
      (i - c = 0 ∨ breakAt fm ps (i - c - 1) = true) →
      start = (if k ≤ c then some (i - c + (k - 1)) else none) →
      ∀ s e, ((s, e) ∈ uniqsScanAux k minLen fm rest i c start out ↔
        ((s, e) ∈ out ∨
          (ClosedRun k minLen fm ps s e ∧ i ≤ e ∧ i - c ≤ s + 1 - k))) := by
  induction rest with
  | nil =>
    intro i c start out _ hlen hc hgood hmax hstart s e
    have hi : i = ps.length := by simpa using hlen
    rw [uniqsScanAux, mem_emitClose]
    have hiff := closeNow_iff k minLen fm ps i c hk hc (by omega) hgood hmax
      (Or.inl hi) s e
    constructor
    · rintro (hm | ⟨s₀, hs₀, hs, he, hml⟩)
      · exact Or.inl hm
      · rw [hstart] at hs₀
        by_cases hkc : k ≤ c
        · rw [if_pos hkc] at hs₀
          obtain rfl : i - c + (k - 1) = s₀ := by injection hs₀
          have hcn := hiff.mpr ⟨hkc, by omega, he, by omega⟩
          exact Or.inr ⟨hcn.1, by omega, hcn.2.2⟩
        · rw [if_neg hkc] at hs₀
          cases hs₀
    · rintro (hm | ⟨hcr, hie, hside⟩)
      · exact Or.inl hm
      · have he : e = i := by
          have := hcr.2.2.1
          omega
        have h2 := hiff.mp ⟨hcr, he, hside⟩
        right
        rw [hstart, if_pos h2.1]
        exact ⟨i - c + (k - 1), rfl, h2.2.1, h2.2.2.1, by omega⟩
  | cons p rest' ih =>
    intro i c start out hdrop hlen hc hgood hmax hstart s e
    have hi : i < ps.length := by
      simp only [List.length_cons] at hlen
      omega
    have hdecomp := List.drop_eq_getElem_cons hi
    rw [hdecomp] at hdrop
    injection hdrop with hp hrest'
    have hbreak_i : breakAt fm ps i = isBreakPos fm p := by
      rw [breakAt, List.getD_eq_getElem _ _ hi, ← hp]
    have hlen' : (i + 1) + rest'.length = ps.length := by
      simp only [List.length_cons] at hlen
      omega
    rw [uniqsScanAux]
    cases hbp : isBreakPos fm p with
    | true =>
      rw [if_pos rfl]
      have hbrk : breakAt fm ps i = true := by rw [hbreak_i, hbp]
      have hIH := ih (i + 1) 0 none (emitClose minLen start i out)
        hrest' hlen' (by omega)
        (fun j hj1 hj2 => absurd hj2 (by omega))
        (Or.inr (by
          have harith : i + 1 - 0 - 1 = i := by omega
          rw [harith]
          exact hbrk))
        (by rw [if_neg (by omega)])
        s e
      rw [hIH, mem_emitClose]
      have hclose := closeNow_iff k minLen fm ps i c hk hc (by omega) hgood hmax
        (Or.inr hbrk) s e
      have hshift := future_break_shift k minLen fm ps i c hbrk s e
      constructor
      · rintro ((hm | hemit) | hfut)
        · exact Or.inl hm
        · rw [hstart] at hemit
          obtain ⟨s₀, hs₀, hs, he, hml⟩ := hemit
          by_cases hkc : k ≤ c
          · rw [if_pos hkc] at hs₀
            obtain rfl : i - c + (k - 1) = s₀ := by injection hs₀
            have hcn := hclose.mpr ⟨hkc, by omega, he, by omega⟩
            exact Or.inr ⟨hcn.1, by omega, hcn.2.2⟩
          · rw [if_neg hkc] at hs₀
            cases hs₀
        · have h2 := hshift.mpr ⟨hfut.1, hfut.2.1, by omega⟩
          exact Or.inr ⟨h2.1, by omega, h2.2.2.1⟩
      · rintro (hm | ⟨hcr, hie, hside⟩)
        · exact Or.inl (Or.inl hm)
        · by_cases he : e = i
          · have h2 := hclose.mp ⟨hcr, he, hside⟩
            refine Or.inl (Or.inr ?_)
            rw [hstart, if_pos h2.1]
            exact ⟨i - c + (k - 1), rfl, h2.2.1, h2.2.2.1, by omega⟩
          · have h2 := hshift.mp ⟨hcr, hie, hside, he⟩
            exact Or.inr ⟨h2.1, h2.2.1, by omega⟩
    | false =>
      rw [if_neg (by simp)]
      have hgdi : breakAt fm ps i = false := by rw [hbreak_i, hbp]
      have hIH := ih (i + 1) (c + 1) (if c + 1 = k then some i else start) out
        hrest' hlen' (by omega)
        (by
          intro j hj1 hj2
          rcases Nat.lt_or_ge j i with hji | hji
          · exact hgood j (by omega) hji
          · have hj : j = i := by omega
            rw [hj]
            exact hgdi)
        (by
          have harith : i + 1 - (c + 1) = i - c := by omega
          rw [harith]
          exact hmax)
        (by
          by_cases h1 : c + 1 = k
          · rw [if_pos h1, if_pos (by omega)]
            congr 1
            omega
          · rw [if_neg h1, hstart]
            by_cases h2 : k ≤ c
            · rw [if_pos h2, if_pos (by omega)]
              congr 1
              omega
            · rw [if_neg h2, if_neg (by omega)])
        s e
      rw [hIH]
      constructor
      · rintro (hm | ⟨hcr, hie, hside⟩)
        · exact Or.inl hm
        · exact Or.inr ⟨hcr, by omega, by omega⟩
      · rintro (hm | ⟨hcr, hie, hside⟩)
        · exact Or.inl hm
        · have hne : e ≠ i := fun he =>
            future_good_no_close k minLen fm ps i hi hgdi s e hcr he
          exact Or.inr ⟨hcr, by omega, by omega⟩

/-- C8: in the uniqs second genome pass, an interval [start, end) is emitted
if and only if a run of consecutive member positions was started — start
being the position at which the consecutive-member counter c first reached
k — and the run is closed by a non-member position, a multi-mapped member
position (when multi-mapped filtering is enabled), or the end of the scan,
at a position end with end − start ≥ min_len. -/
theorem c8_uniqs_intervals (k minLen : Nat) (fm : Bool) (ps : List GPos)
    (hk : 1 ≤ k) (s e : Nat) :
    (s, e) ∈ uniqsScan k minLen fm ps ↔ ClosedRun k minLen fm ps s e := by
  rw [uniqsScan]
  rw [uniqsScanAux_spec k minLen fm ps hk ps 0 0 none [] (by simp) (by simp)
    (by omega) (fun j hj1 hj2 => absurd hj2 (by omega)) (Or.inl rfl)
    (by rw [if_neg (by omega)]) s e]
  simp only [List.not_mem_nil, false_or]
  constructor
  · rintro ⟨hcr, -, -⟩
    exact hcr
  · intro hcr
    exact ⟨hcr, by omega, by omega⟩

/-- C8 witness: in a three-position all-member genome with k = 2 and
min_len = 1 the scan emits exactly the run latched at position 1 and closed
by the end of the scan at position 3. -/
theorem c8_uniqs_intervals_witness :
    ClosedRun 2 1 false [⟨true, false⟩, ⟨true, false⟩, ⟨true, false⟩] 1 3 :=
  (c8_uniqs_intervals 2 1 false [⟨true, false⟩, ⟨true, false⟩, ⟨true, false⟩]
    (by decide) 1 3).mp (by decide)

end Unikmer
